import Mathlib

/-!
Verification of the Paillier-based confidential voting system.

The definitions below are shallow embeddings of the Python sources:
`crypto_wrapper.py` (Paillier context, vote encryption, homomorphic sum and
the ciphertext-bound Sigma protocol), `crypto_wrapper_enhanced.py` (the
Schnorr-style `SigmaProtocol`), `secure_voting_system.py` (the simulation
server's `verify_all_proofs`) and `server.py` (the networked server's state
machine).  Randomness is made explicit: every value the Python code draws
with `random.randint` is passed as an argument or as a stream `ℕ → ℕ`.
-/

namespace Voting

/-- Modular inverse as computed by Python `pow(a, -1, n)`: the representative
in `[0, n)` of the inverse of `a` modulo `n`.  Python uses the extended
Euclidean algorithm; on the domain where Python succeeds (`gcd a n = 1`) the
inverse in `[0, n)` is unique, and this definition computes it by Euler's
theorem, `a⁻¹ = a ^ (φ n - 1) mod n`. -/
def invMod (a n : ℕ) : ℕ := a ^ (Nat.totient n - 1) % n

/-- Python three-argument `pow(a, e, n)` for a natural base and an integer
exponent: for a negative exponent Python first inverts `a` modulo `n`. -/
def powMod (a : ℕ) (e : ℤ) (n : ℕ) : ℕ :=
  if 0 ≤ e then a ^ e.toNat % n else invMod a n ^ (-e).toNat % n

/-- The fields of `PaillierContext.__init__` (crypto_wrapper.py, lines 23-41):
the two primes drawn by `generate_random_prime`; everything else is derived. -/
structure PaillierCtx where
  p : ℕ
  q : ℕ

/-- Paillier modulus `self.n = self.p * self.q`. -/
def PaillierCtx.n (ctx : PaillierCtx) : ℕ := ctx.p * ctx.q

/-- Totient value `self.phi = (self.p - 1) * (self.q - 1)`. -/
def PaillierCtx.phi (ctx : PaillierCtx) : ℕ := (ctx.p - 1) * (ctx.q - 1)

/-- Simplified-variant generator `self.g = self.n + 1`. -/
def PaillierCtx.g (ctx : PaillierCtx) : ℕ := ctx.n + 1

/-- Private exponent `self.lmbda = self.phi`. -/
def PaillierCtx.lmbda (ctx : PaillierCtx) : ℕ := ctx.phi

/-- Private multiplier `self.mu = pow(self.lmbda, -1, self.n)`. -/
def PaillierCtx.mu (ctx : PaillierCtx) : ℕ := invMod ctx.lmbda ctx.n

/-- A valid key pair in the sense of the specification: `p ≠ q` are prime and
`λ` is invertible modulo `n` (so that `mu` exists; Python `pow(λ, -1, n)`
raises otherwise). -/
def PaillierCtx.Valid (ctx : PaillierCtx) : Prop :=
  ctx.p.Prime ∧ ctx.q.Prime ∧ ctx.p ≠ ctx.q ∧ Nat.Coprime ctx.lmbda ctx.n

instance (ctx : PaillierCtx) : Decidable ctx.Valid := by
  unfold PaillierCtx.Valid; infer_instance

/-- `PaillierContext.decrypt` (crypto_wrapper.py, lines 46-56).  The source
computes `l = int(cl - 1) / int(self.n)` with Python float true-division and
then `p = int((l * self.mu) % self.n)`.  For the moduli this program generates
(`n < 2 ^ 13`) every intermediate float is far inside double precision and the
exact values are multiples of `1 / n`, further from an integer boundary than
the accumulated rounding error, so the float pipeline truncates to the same
integer as exact rational arithmetic.  Python `int` truncates toward zero and
`(l * mu) % n` is nonnegative (Python `%` follows the sign of the divisor), so
the truncation is a floor, and the exact value satisfies
`⌊(((cl - 1) / n * mu) mod n)⌋ = (((cl - 1) * mu) fmod n²) / n`; the embedding
uses the right-hand side, in exact integer arithmetic (`Int.fmod` is the
floor-convention remainder, matching Python `%`). -/
def PaillierCtx.decrypt (ctx : PaillierCtx) (c : ℕ) : ℤ :=
  let cl : ℕ := c ^ ctx.lmbda % (ctx.n * ctx.n)
  let a : ℤ := ((cl : ℤ) - 1) * (ctx.mu : ℤ)
  let p : ℤ := a.fmod ((ctx.n : ℤ) * (ctx.n : ℤ)) / (ctx.n : ℤ)
  if p > (ctx.n : ℤ) / 2 then p - (ctx.n : ℤ) else p

/-- `encrypt_vote` (crypto_wrapper.py, lines 59-67) with the randomness `r`
made explicit; the source draws `r` from `[1, n)` and redraws until
`gcd r n = 1`.  The ciphertext is `pow(g, m, n²) * pow(r, n, n²) % n²`. -/
def encrypt_vote (m : ℤ) (public_key : ℕ × ℕ) (r : ℕ) : ℕ :=
  (powMod (public_key.1) m (public_key.2 * public_key.2) *
    (r ^ public_key.2 % (public_key.2 * public_key.2))) %
    (public_key.2 * public_key.2)

/-- `calculate_encrypted_sum` (crypto_wrapper.py, lines 70-82): `0` for the
empty list, otherwise the left fold of modular multiplication starting from
the first element (which itself is not reduced). -/
def calculate_encrypted_sum (encrypted_values : List ℕ) (public_key : ℕ × ℕ) : ℕ :=
  match encrypted_values with
  | [] => 0
  | c :: rest => rest.foldl (fun acc ci => acc * ci % (public_key.2 * public_key.2)) c

/-- `generate_zkp_challange_response` (crypto_wrapper.py, lines 85-96) with the
ephemeral randoms `x` and `s` made explicit (the source draws both from
`[1, N)`).  Returns `(u, v, w)` with `u = g^x * s^N mod N²`,
`v = (x - e*m) mod N` and `w = s * pow(r, -e, N) mod N`. -/
def generate_zkp_challange_response (m : ℤ) (r : ℕ) (public_key : ℕ × ℕ) (e : ℕ)
    (x s : ℕ) : ℕ × ℕ × ℕ :=
  let N := public_key.2
  let N2 := N * N
  let u := (public_key.1 ^ x % N2) * (s ^ N % N2) % N2
  let v := (((x : ℤ) - (e : ℤ) * m) % (N : ℤ)).toNat
  let w := s * powMod r (-(e : ℤ)) N % N
  (u, v, w)

/-- `verify_zkp_response` (crypto_wrapper.py, lines 98-104): accept iff
`g^v * w^N * c^e mod N² == u`. -/
def verify_zkp_response (u v w : ℕ) (e : ℕ) (c : ℕ) (public_key : ℕ × ℕ) : Bool :=
  let N := public_key.2
  let N2 := N * N
  decide (((public_key.1 ^ v % N2) * (w ^ N % N2) * (c ^ e % N2)) % N2 = u)

/-- Re-centering of a signed value modulo `n`, as performed at the end of
`decrypt`: the representative of `m` in `[0, n)` is shifted down by `n` when
it exceeds `n / 2` (Python `n // 2`). -/
def recenter (n : ℕ) (m : ℤ) : ℤ :=
  if m % (n : ℤ) > (n : ℤ) / 2 then m % (n : ℤ) - (n : ℤ) else m % (n : ℤ)

/-- Modelled from the spec: the specification's `decrypt` (spec section 4.1)
"computes L = (c^λ mod n² − 1) / n (exact integer division …), then
m = (L · μ) mod n, then re-centers" and "Fails with `DecryptError` if the
division is not exact".  No `DecryptError` and no exactness check exist
anywhere in the repository's code; this definition follows the spec's words
(failure modelled as `none`) so it can be compared with
`PaillierCtx.decrypt`, the embedding of the code. -/
def decryptChecked (ctx : PaillierCtx) (c : ℕ) : Option ℤ :=
  let cl : ℕ := c ^ ctx.lmbda % (ctx.n * ctx.n)
  if (ctx.n : ℤ) ∣ ((cl : ℤ) - 1) then
    some (recenter ctx.n (((cl : ℤ) - 1) / (ctx.n : ℤ) * (ctx.mu : ℤ)))
  else none

/-! The Schnorr-style `SigmaProtocol` of crypto_wrapper_enhanced.py and the
simulation server of secure_voting_system.py. -/

/-- `SigmaProtocol.create_commitment` (crypto_wrapper_enhanced.py, lines
94-99) with the ephemeral random `r` explicit: returns the commitment
`(a, r) = (g^r mod P, r)` together with the encrypted secret
`k = pow(g, secret, P)` (the secret is a vote, possibly `-1`, so Python `pow`
may invert `g`). -/
def sigma_create_commitment (g P : ℕ) (secret : ℤ) (r : ℕ) : (ℕ × ℕ) × ℕ :=
  ((g ^ r % P, r), powMod g secret P)

/-- `SigmaProtocol.create_proof` (crypto_wrapper_enhanced.py, lines 106-109):
`z = r + c * secret`, an unreduced integer. -/
def sigma_create_proof (commitment_r : ℕ) (c : ℕ) (secret : ℤ) : ℤ :=
  (commitment_r : ℤ) + (c : ℤ) * secret

/-- `SigmaProtocol.verify_proof` (crypto_wrapper_enhanced.py, lines 111-116):
accept iff `pow(g, z, P) == a * pow(k, c, P) % P`. -/
def sigma_verify_proof (g P : ℕ) (commitment_a : ℕ) (challenge : ℕ) (z : ℤ)
    (encrypted_secret : ℕ) : Bool :=
  decide (powMod g z P = commitment_a * (encrypted_secret ^ challenge % P) % P)

/-- A simulator voter context (`VoterContext` in secure_voting_system.py):
the vote value (`VoteValue.YES = 1`, `VoteValue.NO = -1`), the retained
commitment `(a, r)` and the encrypted secret `k`. -/
structure VoterCtx where
  voter_id : String
  vote : ℤ
  com_a : ℕ
  com_r : ℕ
  encrypted_secret : ℕ

/-- `Simulator.provide_proof` (secure_voting_system.py, lines 60-82): a voter
listed as fraudulent answers with the opposite binary vote value
(`YES` if the context's vote is `NO`, else `NO`), an honest voter with the
true one. -/
def provide_proof (fraudulent : List String) (ctx : VoterCtx) (challenge : ℕ) : ℤ :=
  if ctx.voter_id ∈ fraudulent then
    sigma_create_proof ctx.com_r challenge (if ctx.vote = -1 then 1 else -1)
  else
    sigma_create_proof ctx.com_r challenge ctx.vote

/-- One voter's verification step inside `Server.verify_all_proofs`
(secure_voting_system.py, lines 178-194): draw no conclusions from other
voters — look the voter up in the simulator contexts, obtain the proof and
verify it against the stored commitment; a missing context (proof `None`)
records `false`. -/
def verify_one (g P : ℕ) (contexts : List VoterCtx) (fraudulent : List String)
    (challenge : ℕ) (voter_id : String) (com_a : ℕ) : Bool :=
  match contexts.find? (fun c => c.voter_id = voter_id) with
  | none => false
  | some ctx =>
      sigma_verify_proof g P com_a challenge
        (provide_proof fraudulent ctx challenge) ctx.encrypted_secret

/-- `Server.verify_all_proofs` (secure_voting_system.py, lines 172-199): walk
the whole vote storage in order, drawing one fresh challenge per voter
(`challenges i` is the challenge drawn at the i-th iteration) and recording
one boolean per voter; no outcome interrupts the loop.  `storage` holds
`(voter_id, commitment_a)` pairs in insertion order. -/
def verify_all_proofs (g P : ℕ) (contexts : List VoterCtx) (fraudulent : List String)
    (challenges : ℕ → ℕ) : List (String × ℕ) → ℕ → List (String × Bool)
  | [], _ => []
  | (voter_id, com_a) :: rest, i =>
      (voter_id, verify_one g P contexts fraudulent (challenges i) voter_id com_a) ::
        verify_all_proofs g P contexts fraudulent challenges rest (i + 1)

/-! The networked server of server.py, as a state machine over explicit
events.  Each connected client is handled by its own thread; the shared
mutable fields of `VotingServer` that the claims concern are modelled here,
and each message handled by some thread is one event. -/

/-- Python `dict` assignment `d[k] = v`: overwrite in place, else append. -/
def updateAssoc {α : Type} : List (String × α) → String → α → List (String × α)
  | [], k, v => [(k, v)]
  | (k', v') :: rest, k, v =>
      if k' = k then (k, v) :: rest else (k', v') :: updateAssoc rest k v

/-- Python `dict.pop(k, default)`: drop the entry for `k` if present. -/
def eraseAssoc {α : Type} : List (String × α) → String → List (String × α)
  | [], _ => []
  | (k', v') :: rest, k => if k' = k then rest else (k', v') :: eraseAssoc rest k

/-- The shared state of `VotingServer` (server.py, lines 23-33) that the
claims concern.  `clients` is the insertion-ordered key list of
`self.clients`; `zkp_log` records the per-voter PASSED/FAILED outcomes in the
order the server announces them (server.py, lines 161-164). -/
structure ServerState where
  clients : List String
  encrypted_votes : List ℕ
  shared_public_key : Option (ℕ × ℕ)
  active_challenges : List (String × (ℕ × ℕ))
  finished_zkp_validations : Bool
  zkp_log : List (String × Bool)

/-- The `vote` branch of `VotingServer.handle_client` (server.py, lines
119-126): the ciphertext is appended to `self.encrypted_votes`
unconditionally; the connection's `client_id` is not consulted. -/
def handle_vote (st : ServerState) (_client_id : String) (encrypted_vote : ℕ) :
    ServerState :=
  { st with encrypted_votes := st.encrypted_votes ++ [encrypted_vote] }

/-- A sequence of `vote` messages, in arrival order. -/
def handle_votes (st : ServerState) (events : List (String × ℕ)) : ServerState :=
  events.foldl (fun s ev => handle_vote s ev.1 ev.2) st

/-- `VotingServer.challenge_client_for_zkp` (server.py, lines 196-207): store
`(challenge, self.encrypted_votes[-1])` for the client.  The caller
`challenge_clients_for_zkp` guarantees `encrypted_votes` is non-empty, so the
`getLastD` default is never consulted there. -/
def challenge_client_for_zkp (st : ServerState) (client_id : String)
    (challenge : ℕ) : ServerState :=
  if st.shared_public_key = none then st
  else
    { st with
        active_challenges :=
          updateAssoc st.active_challenges client_id
            (challenge, st.encrypted_votes.getLastD 0) }

/-- `VotingServer.challenge_clients_for_zkp` (server.py, lines 209-220):
guard on a missing key or empty vote list, then challenge every connected
client in order; `challenges i` is the random challenge drawn for the i-th
client. -/
def challenge_clients_for_zkp (st : ServerState) (challenges : ℕ → ℕ) :
    ServerState :=
  if st.shared_public_key = none then st
  else if st.encrypted_votes = [] then st
  else
    (st.clients.enum).foldl
      (fun s p => challenge_client_for_zkp s p.2 (challenges p.1)) st

/-- The `zkp_response` branch of `VotingServer.handle_client` (server.py,
lines 148-174), for one response from `client_id`.  A thread only reads a
response while its loop condition still holds; once
`finished_zkp_validations` is set (and voting is over) every thread's loop
exits, so a pending response is no longer processed.  The verification is the
inline computation of lines 157-161, identical to `verify_zkp_response`.  On
failure the flag is set and the handler returns — nothing is recorded beyond
the FAILED log line. -/
def handle_zkp_response (st : ServerState) (client_id : String) (u v w : ℕ) :
    ServerState :=
  if st.finished_zkp_validations then st
  else
    match st.shared_public_key, (st.active_challenges.lookup client_id) with
    | some pk, some (challenge, c) =>
        let st1 := { st with
          active_challenges := eraseAssoc st.active_challenges client_id }
        if verify_zkp_response u v w challenge c pk then
          if st1.active_challenges = [] then
            { st1 with zkp_log := st1.zkp_log ++ [(client_id, true)],
                       finished_zkp_validations := true }
          else { st1 with zkp_log := st1.zkp_log ++ [(client_id, true)] }
        else
          { st1 with zkp_log := st1.zkp_log ++ [(client_id, false)],
                     finished_zkp_validations := true }
    | _, _ => st

/-- A sequence of `zkp_response` messages, in arrival order. -/
def handle_zkp_responses (st : ServerState)
    (responses : List (String × ℕ × ℕ × ℕ)) : ServerState :=
  responses.foldl (fun s r => handle_zkp_response s r.1 r.2.1 r.2.2.1 r.2.2.2) st

/-- `VotingServer.generate_client_id` (server.py, lines 61-68), with the
stream of `random.randint(1000, 9999)` draws explicit (`draws j` is the j-th
draw) and the rejection loop given fuel: starting from the i-th draw, return
the first candidate `C<number>` not in `used`, adding it to the used set;
`none` when the fuel runs out before a fresh candidate appears. -/
def generate_client_id (used : List String) (draws : ℕ → ℕ) :
    ℕ → ℕ → Option (String × List String)
  | _, 0 => none
  | i, fuel + 1 =>
      let cid := "C" ++ Nat.repr (draws i)
      if cid ∈ used then generate_client_id used draws (i + 1) fuel
      else some (cid, cid :: used)

/-- Termination of `generate_client_id`'s rejection loop, from the first
draw: some amount of fuel suffices. -/
def GenTerminates (used : List String) (draws : ℕ → ℕ) : Prop :=
  ∃ fuel, (generate_client_id used draws 0 fuel).isSome

end Voting

namespace Voting

set_option maxRecDepth 100000


section Helpers

/-- Transfer of an integer congruence between casts of naturals back to `ℕ`. -/
lemma nat_modEq_of_int {n a b : ℕ} (h : (a : ℤ) ≡ (b : ℤ) [ZMOD (n : ℤ)]) :
    a ≡ b [MOD n] := by
  have h' : ((a % n : ℕ) : ℤ) = ((b % n : ℕ) : ℤ) := by
    rw [Int.natCast_mod, Int.natCast_mod]
    exact h
  exact_mod_cast h'

/-- Transfer of a natural congruence to the casts in `ℤ`. -/
lemma int_modEq_of_nat {n a b : ℕ} (h : a ≡ b [MOD n]) :
    (a : ℤ) ≡ (b : ℤ) [ZMOD (n : ℤ)] := by
  show (a : ℤ) % n = (b : ℤ) % n
  rw [← Int.natCast_mod, ← Int.natCast_mod]
  exact_mod_cast h

/-- The generator `g = n + 1` is coprime to `n * n`. -/
lemma g_coprime (n : ℕ) : Nat.Coprime (n + 1) (n * n) := by
  have h : Nat.Coprime (n + 1) n := by simp [Nat.Coprime, Nat.gcd_add_one]
  exact h.mul_right h

/-- Binomial identity in `ZMod (n * n)`: `(n + 1) ^ k = 1 + k * n`. -/
lemma g_pow_cast (n k : ℕ) :
    (((n + 1 : ℕ) : ZMod (n * n))) ^ k = 1 + (k : ZMod (n * n)) * (n : ZMod (n * n)) := by
  induction k with
  | zero => simp
  | succ k ih =>
      have hnn : (n : ZMod (n * n)) ^ 2 = 0 := by
        rw [sq, ← Nat.cast_mul, ZMod.natCast_self]
      rw [pow_succ, ih]
      push_cast
      ring_nf
      rw [hnn]
      ring

/-- The generator has trivial `n`-th power in `ZMod (n * n)`. -/
lemma g_pow_n (n : ℕ) : (((n + 1 : ℕ) : ZMod (n * n))) ^ n = 1 := by
  rw [g_pow_cast, ← Nat.cast_mul, ZMod.natCast_self, add_zero]

/-- Powers of the generator only depend on the exponent modulo `n`. -/
lemma g_pow_congr {n : ℕ} {a b : ℕ} (h : a ≡ b [MOD n]) :
    (((n + 1 : ℕ) : ZMod (n * n))) ^ a = (((n + 1 : ℕ) : ZMod (n * n))) ^ b := by
  have key : ∀ c : ℕ, (((n + 1 : ℕ) : ZMod (n * n))) ^ c
      = (((n + 1 : ℕ) : ZMod (n * n))) ^ (c % n) := by
    intro c
    conv_lhs => rw [← Nat.div_add_mod c n]
    rw [pow_add, pow_mul, g_pow_n, one_pow, one_mul]
  rw [key a, key b, h]

/-- If the generator's powers at `a` and `b` agree then `a ≡ b [MOD n]`. -/
lemma g_pow_inj {n : ℕ} (hn : 0 < n) {a b : ℕ}
    (h : (((n + 1 : ℕ) : ZMod (n * n))) ^ a = (((n + 1 : ℕ) : ZMod (n * n))) ^ b) :
    a ≡ b [MOD n] := by
  rw [g_pow_cast, g_pow_cast] at h
  have h3 : ((((a : ℤ) - b) * n : ℤ) : ZMod (n * n)) = 0 := by
    push_cast
    linear_combination h
  rw [ZMod.intCast_zmod_eq_zero_iff_dvd, Nat.cast_mul] at h3
  have hn' : (n : ℤ) ≠ 0 := by exact_mod_cast hn.ne'
  have h5 : (n : ℤ) ∣ ((a : ℤ) - b) := by
    rcases h3 with ⟨t, ht⟩
    refine ⟨t, mul_right_cancel₀ hn' ?_⟩
    calc ((a : ℤ) - b) * n = (n : ℤ) * n * t := ht
      _ = (n : ℤ) * t * n := by ring
  exact nat_modEq_of_int (Int.modEq_iff_dvd.mpr (dvd_sub_comm.mp h5))

/-- Lifting a congruence modulo `n` to `n`-th powers modulo `n * n`. -/
lemma pow_lift {n a b : ℕ} (h : a ≡ b [MOD n]) :
    ((a : ZMod (n * n))) ^ n = ((b : ZMod (n * n))) ^ n := by
  have hd : (n : ℤ) ∣ (a : ℤ) - b := dvd_sub_comm.mp (Int.ModEq.dvd (int_modEq_of_nat h))
  have hsum : (n : ℤ) ∣ ∑ i ∈ Finset.range n, (a : ℤ) ^ i * (b : ℤ) ^ (n - 1 - i) := by
    have hz : ((∑ i ∈ Finset.range n, (a : ℤ) ^ i * (b : ℤ) ^ (n - 1 - i) : ℤ) : ZMod n) = 0 := by
      push_cast
      have hab : ((a : ZMod n)) = ((b : ZMod n)) := by
        rw [ZMod.natCast_eq_natCast_iff]
        exact h
      calc (∑ i ∈ Finset.range n, (a : ZMod n) ^ i * (b : ZMod n) ^ (n - 1 - i))
          = ∑ i ∈ Finset.range n, (b : ZMod n) ^ i * (b : ZMod n) ^ (n - 1 - i) := by
            refine Finset.sum_congr rfl ?_
            intro i _
            rw [hab]
        _ = ∑ i ∈ Finset.range n, (b : ZMod n) ^ (i + (n - 1 - i)) := by
            refine Finset.sum_congr rfl ?_
            intro i _
            rw [pow_add]
        _ = ∑ i ∈ Finset.range n, (b : ZMod n) ^ (n - 1) := by
            refine Finset.sum_congr rfl ?_
            intro i hi
            rw [Finset.mem_range] at hi
            congr 1
            omega
        _ = (n : ZMod n) * (b : ZMod n) ^ (n - 1) := by
            rw [Finset.sum_const, Finset.card_range, nsmul_eq_mul]
        _ = 0 := by rw [ZMod.natCast_self, zero_mul]
    exact_mod_cast (ZMod.intCast_zmod_eq_zero_iff_dvd _ _).mp hz
  have hdvd : ((n : ℤ) * n) ∣ (a : ℤ) ^ n - (b : ℤ) ^ n := by
    rw [← geom_sum₂_mul]
    exact mul_dvd_mul hsum hd
  have := (ZMod.intCast_eq_intCast_iff ((a : ℤ) ^ n) ((b : ℤ) ^ n) (n * n)).mpr
    (Int.modEq_iff_dvd.mpr (by
      rw [Nat.cast_mul]
      exact dvd_sub_comm.mp hdvd))
  push_cast at this
  exact_mod_cast this

/-- Correctness of `invMod`: a value coprime to the modulus times its inverse
is `1` modulo the modulus. -/
lemma invMod_mul {a n : ℕ} (hn : 0 < n) (h : Nat.Coprime a n) :
    a * invMod a n ≡ 1 [MOD n] := by
  unfold invMod
  calc a * (a ^ (Nat.totient n - 1) % n)
      ≡ a * a ^ (Nat.totient n - 1) [MOD n] := Nat.ModEq.mul_left a (Nat.mod_modEq _ _)
    _ = a ^ (Nat.totient n - 1 + 1) := by rw [pow_succ, mul_comm]
    _ = a ^ Nat.totient n := by
        congr 1
        have : 0 < Nat.totient n := Nat.totient_pos.mpr hn
        omega
    _ ≡ 1 [MOD n] := Nat.ModEq.pow_totient h

/-- Totient of `n * n` for `n = p * q` a product of two distinct primes. -/
lemma totient_nn {p q : ℕ} (hp : p.Prime) (hq : q.Prime) (hpq : p ≠ q) :
    Nat.totient ((p * q) * (p * q)) = (p * q) * ((p - 1) * (q - 1)) := by
  have hco : Nat.Coprime (p ^ 2) (q ^ 2) :=
    ((Nat.coprime_primes hp hq).mpr hpq).pow 2 2
  have h1 : (p * q) * (p * q) = p ^ 2 * q ^ 2 := by ring
  rw [h1, Nat.totient_mul hco, Nat.totient_prime_pow hp (by norm_num),
    Nat.totient_prime_pow hq (by norm_num)]
  norm_num
  ring

/-- Euler's theorem for the square modulus: an element coprime to `n = p * q`
raised to `n * (p - 1) * (q - 1) = φ (n²)` is `1` in `ZMod (n * n)`. -/
lemma pow_n_lmbda {p q : ℕ} (hp : p.Prime) (hq : q.Prime) (hpq : p ≠ q) {x : ℕ}
    (hx : Nat.Coprime x (p * q)) :
    ((x : ZMod ((p * q) * (p * q)))) ^ ((p * q) * ((p - 1) * (q - 1))) = 1 := by
  have hx2 : Nat.Coprime x ((p * q) * (p * q)) := hx.mul_right hx
  have h := Nat.ModEq.pow_totient hx2
  rw [totient_nn hp hq hpq] at h
  have h2 := (ZMod.natCast_eq_natCast_iff _ _ _).mpr h
  push_cast at h2
  exact h2

/-- The ciphertext produced by `encrypt_vote` under `(g, n) = (n + 1, n)` seen
in `ZMod (n * n)`: a power of the generator times an `n`-th power. -/
lemma encrypt_cast {n : ℕ} (hn : 0 < n) (m : ℤ) (r : ℕ) :
    ((encrypt_vote m (n + 1, n) r : ℕ) : ZMod (n * n))
      = (((n + 1 : ℕ) : ZMod (n * n))) ^ (m % (n : ℤ)).toNat
          * ((r : ZMod (n * n))) ^ n := by
  have hn' : (n : ℤ) ≠ 0 := by exact_mod_cast hn.ne'
  unfold encrypt_vote
  rw [ZMod.natCast_mod, Nat.cast_mul, ZMod.natCast_mod, Nat.cast_pow]
  congr 1
  rcases le_or_lt 0 m with hm | hm
  · have hbr : powMod (n + 1) m (n * n) = (n + 1) ^ m.toNat % (n * n) := by
      unfold powMod
      rw [if_pos hm]
    rw [hbr, ZMod.natCast_mod, Nat.cast_pow]
    have htn : (m % (n : ℤ)).toNat = m.toNat % n := by
      have h1 : ((m % (n : ℤ)).toNat : ℤ) = ((m.toNat % n : ℕ) : ℤ) := by
        rw [Int.toNat_of_nonneg (Int.emod_nonneg m hn'), Int.natCast_mod,
          Int.toNat_of_nonneg hm]
      exact_mod_cast h1
    rw [htn]
    exact g_pow_congr (Nat.mod_modEq m.toNat n).symm
  · have hbr : powMod (n + 1) m (n * n) = invMod (n + 1) (n * n) ^ (-m).toNat % (n * n) := by
      unfold powMod
      rw [if_neg (by omega)]
    rw [hbr, ZMod.natCast_mod, Nat.cast_pow]
    have hGI : (((n + 1 : ℕ) : ZMod (n * n))) * ((invMod (n + 1) (n * n) : ℕ) : ZMod (n * n)) = 1 := by
      have h := (ZMod.natCast_eq_natCast_iff _ _ _).mpr
        (invMod_mul (Nat.mul_pos hn hn) (g_coprime n))
      rw [Nat.cast_mul, Nat.cast_one] at h
      exact h
    set k := (-m).toNat with hk
    set M := (m % (n : ℤ)).toNat with hM
    have hsum : ∃ t : ℕ, M + k = n * t := by
      have h0 : ((M : ℤ) + k) = m % n + (-m) := by
        rw [hM, hk, Int.toNat_of_nonneg (Int.emod_nonneg m hn'),
          Int.toNat_of_nonneg (by omega)]
      have hdvd : (n : ℤ) ∣ ((M : ℤ) + k) := by
        rw [h0, Int.emod_def]
        exact ⟨-(m / n), by ring⟩
      rcases hdvd with ⟨t, ht⟩
      have hnpos : (0 : ℤ) < n := by exact_mod_cast hn
      have ht0 : 0 ≤ t := by nlinarith [Int.natCast_nonneg M, Int.natCast_nonneg k]
      refine ⟨t.toNat, ?_⟩
      have hcast : ((M + k : ℕ) : ℤ) = ((n * t.toNat : ℕ) : ℤ) := by
        push_cast
        rw [Int.toNat_of_nonneg ht0]
        exact ht
      exact_mod_cast hcast
    rcases hsum with ⟨t, ht⟩
    have hGunit : IsUnit ((((n + 1 : ℕ)) : ZMod (n * n)) ^ k) :=
      (IsUnit.pow k ((ZMod.isUnit_iff_coprime (n + 1) (n * n)).mpr (g_coprime n)))
    apply (IsUnit.mul_right_cancel hGunit)
    calc ((invMod (n + 1) (n * n) : ℕ) : ZMod (n * n)) ^ k * (((n + 1 : ℕ) : ZMod (n * n))) ^ k
        = ((((n + 1 : ℕ) : ZMod (n * n))) * ((invMod (n + 1) (n * n) : ℕ) : ZMod (n * n))) ^ k := by
          rw [mul_pow]
          ring
      _ = 1 := by rw [hGI, one_pow]
      _ = (((n + 1 : ℕ) : ZMod (n * n))) ^ (M + k) := by
          rw [ht, pow_mul, g_pow_n, one_pow]
      _ = (((n + 1 : ℕ) : ZMod (n * n))) ^ M * (((n + 1 : ℕ) : ZMod (n * n))) ^ k := by
          rw [pow_add]

/-- Re-centering only depends on the argument modulo `n`. -/
lemma recenter_congr {n : ℕ} {a b : ℤ} (h : a % (n : ℤ) = b % (n : ℤ)) :
    recenter n a = recenter n b := by
  unfold recenter
  rw [h]

/-- Re-centering recovers any signed value of magnitude below `n / 2`. -/
lemma recenter_eq_self {n : ℕ} {m : ℤ} (hm : 2 * m.natAbs < n) :
    recenter n m = m := by
  have hmz : 2 * |m| < (n : ℤ) := by
    rw [Int.abs_eq_natAbs]
    exact_mod_cast hm
  have hn : (0 : ℤ) < n := lt_of_le_of_lt (by positivity) hmz
  unfold recenter
  rcases le_or_lt 0 m with h0 | h0
  · have h2 : 2 * m < (n : ℤ) := by
      have := hmz
      rw [abs_of_nonneg h0] at this
      exact this
    have hmod : m % (n : ℤ) = m := Int.emod_eq_of_lt h0 (by omega)
    rw [hmod, if_neg]
    push_neg
    rw [Int.le_ediv_iff_mul_le (by norm_num : (0:ℤ) < 2)]
    omega
  · have h2 : 2 * (-m) < (n : ℤ) := by
      have := hmz
      rw [abs_of_neg h0] at this
      omega
    have hmod : m % (n : ℤ) = m + n := by
      have h1 := Int.add_mul_emod_self_left m (n : ℤ) 1
      rw [mul_one] at h1
      rw [← h1]
      exact Int.emod_eq_of_lt (by omega) (by omega)
    rw [hmod, if_pos]
    · ring
    · rw [gt_iff_lt, Int.ediv_lt_iff_lt_mul (by norm_num : (0:ℤ) < 2)]
      omega

/-- Decrypting any ciphertext of the subgroup form `g^m · x^n` with `x`
coprime to `n`: the result is the re-centered `m`, the division
`(c^λ mod n² - 1) / n` is exact, and the spec's checked decryptor agrees with
the code's decryptor. -/
lemma decrypt_eq_recenter (ctx : PaillierCtx) (hv : ctx.Valid) (c : ℕ) (m : ℤ) (x : ℕ)
    (hx : Nat.Coprime x ctx.n)
    (hc : ((c : ZMod (ctx.n * ctx.n)))
      = (((ctx.n + 1 : ℕ) : ZMod (ctx.n * ctx.n))) ^ (m % (ctx.n : ℤ)).toNat
          * ((x : ZMod (ctx.n * ctx.n))) ^ ctx.n) :
    ctx.decrypt c = recenter ctx.n m
      ∧ (ctx.n : ℤ) ∣ ((c ^ ctx.lmbda % (ctx.n * ctx.n) : ℕ) : ℤ) - 1
      ∧ decryptChecked ctx c = some (ctx.decrypt c) := by
  obtain ⟨hp, hq, hpq, hco⟩ := hv
  have hp2 : 2 ≤ ctx.p := hp.two_le
  have hq2 : 2 ≤ ctx.q := hq.two_le
  have hn4 : 4 ≤ ctx.n := by
    have : 4 ≤ ctx.p * ctx.q := Nat.mul_le_mul hp2 hq2
    exact this
  have hn : 0 < ctx.n := by omega
  have hnpos : (0 : ℤ) < ctx.n := by exact_mod_cast hn
  have hnz : (ctx.n : ℤ) ≠ 0 := hnpos.ne'
  set cl := c ^ ctx.lmbda % (ctx.n * ctx.n) with hcl_def
  have hM : ((m % (ctx.n : ℤ)).toNat : ℤ) = m % ctx.n :=
    Int.toNat_of_nonneg (Int.emod_nonneg m hnz)
  have hcl_cast : ((cl : ℕ) : ZMod (ctx.n * ctx.n))
      = 1 + (((m % (ctx.n : ℤ)).toNat * ctx.lmbda : ℕ) : ZMod (ctx.n * ctx.n))
          * ((ctx.n : ℕ) : ZMod (ctx.n * ctx.n)) := by
    have hx_pow : ((x : ZMod (ctx.n * ctx.n))) ^ (ctx.n * ctx.lmbda) = 1 :=
      pow_n_lmbda hp hq hpq hx
    rw [hcl_def, ZMod.natCast_mod, Nat.cast_pow, hc, mul_pow, ← pow_mul, ← pow_mul,
      hx_pow, mul_one, g_pow_cast, Nat.cast_mul]
  have hint : (cl : ℤ) ≡ 1 + ((m % (ctx.n : ℤ)).toNat : ℤ) * (ctx.lmbda : ℤ) * (ctx.n : ℤ)
      [ZMOD ((ctx.n * ctx.n : ℕ) : ℤ)] := by
    rw [← ZMod.intCast_eq_intCast_iff]
    push_cast
    push_cast at hcl_cast
    rw [hcl_cast]
  set M : ℤ := ((m % (ctx.n : ℤ)).toNat : ℤ) with hM_def
  have hdvd2 : ((ctx.n : ℤ) * ctx.n) ∣
      (cl : ℤ) - (1 + M * (ctx.lmbda : ℤ) * (ctx.n : ℤ)) := by
    have h := Int.ModEq.dvd hint
    push_cast at h
    exact dvd_sub_comm.mp h
  have hdvd_n : (ctx.n : ℤ) ∣ (cl : ℤ) - 1 := by
    have h1 : (ctx.n : ℤ) ∣ (cl : ℤ) - (1 + M * (ctx.lmbda : ℤ) * (ctx.n : ℤ)) :=
      dvd_trans (dvd_mul_right _ _) hdvd2
    have h2 : (ctx.n : ℤ) ∣ M * (ctx.lmbda : ℤ) * (ctx.n : ℤ) := ⟨M * ctx.lmbda, by ring⟩
    have h3 : (cl : ℤ) - 1
        = ((cl : ℤ) - (1 + M * (ctx.lmbda : ℤ) * (ctx.n : ℤ)))
            + M * (ctx.lmbda : ℤ) * (ctx.n : ℤ) := by ring
    rw [h3]
    exact dvd_add h1 h2
  have hcl_pos : 1 ≤ cl := by
    by_contra hcon
    have hcl0 : cl = 0 := by omega
    rw [hcl0] at hdvd_n
    have h1 : (ctx.n : ℤ) ∣ 1 := by
      have h' : (ctx.n : ℤ) ∣ (-1 : ℤ) := by simpa using hdvd_n
      exact dvd_neg.mp h'
    have h2 := Int.le_of_dvd one_pos h1
    omega
  obtain ⟨t, ht⟩ := hdvd_n
  have hclz : (1 : ℤ) ≤ (cl : ℤ) := by exact_mod_cast hcl_pos
  have ht0 : 0 ≤ t := by nlinarith
  have htcong : t ≡ M * (ctx.lmbda : ℤ) [ZMOD (ctx.n : ℤ)] := by
    have h1 : ((ctx.n : ℤ) * ctx.n) ∣ (ctx.n : ℤ) * (t - M * (ctx.lmbda : ℤ)) := by
      have he : (ctx.n : ℤ) * (t - M * (ctx.lmbda : ℤ))
          = (cl : ℤ) - (1 + M * (ctx.lmbda : ℤ) * (ctx.n : ℤ)) := by
        linear_combination -ht
      rw [he]
      exact hdvd2
    have h2 : (ctx.n : ℤ) ∣ t - M * (ctx.lmbda : ℤ) := (mul_dvd_mul_iff_left hnz).mp h1
    exact Int.modEq_iff_dvd.mpr (dvd_sub_comm.mp h2)
  have hmu : (ctx.lmbda : ℤ) * (ctx.mu : ℤ) ≡ 1 [ZMOD (ctx.n : ℤ)] := by
    have h := int_modEq_of_nat (invMod_mul hn hco)
    push_cast at h
    exact h
  have hp0 : (t * (ctx.mu : ℤ)) % (ctx.n : ℤ) = m % (ctx.n : ℤ) := by
    have h1 : t * (ctx.mu : ℤ) ≡ M * (ctx.lmbda : ℤ) * (ctx.mu : ℤ) [ZMOD (ctx.n : ℤ)] :=
      Int.ModEq.mul_right _ htcong
    have h2 : M * (ctx.lmbda : ℤ) * (ctx.mu : ℤ) ≡ M * 1 [ZMOD (ctx.n : ℤ)] := by
      have := Int.ModEq.mul_left M hmu
      rw [← mul_assoc] at this
      exact this
    have h3 : t * (ctx.mu : ℤ) ≡ M [ZMOD (ctx.n : ℤ)] := (h1.trans h2).trans (by rw [mul_one])
    have h4 : (t * (ctx.mu : ℤ)) % (ctx.n : ℤ) = M % (ctx.n : ℤ) := h3
    rw [h4, hM]
    exact Int.emod_emod_of_dvd m dvd_rfl
  have hdec : ctx.decrypt c = recenter ctx.n m := by
    show (if ((((cl : ℤ) - 1) * (ctx.mu : ℤ)).fmod ((ctx.n : ℤ) * (ctx.n : ℤ)) / (ctx.n : ℤ))
            > (ctx.n : ℤ) / 2
        then (((cl : ℤ) - 1) * (ctx.mu : ℤ)).fmod ((ctx.n : ℤ) * (ctx.n : ℤ)) / (ctx.n : ℤ)
              - (ctx.n : ℤ)
        else (((cl : ℤ) - 1) * (ctx.mu : ℤ)).fmod ((ctx.n : ℤ) * (ctx.n : ℤ)) / (ctx.n : ℤ))
      = recenter ctx.n m
    have hval : (((cl : ℤ) - 1) * (ctx.mu : ℤ)).fmod ((ctx.n : ℤ) * (ctx.n : ℤ)) / (ctx.n : ℤ)
        = m % (ctx.n : ℤ) := by
      rw [Int.fmod_eq_emod _ (by positivity), ht]
      have he : (ctx.n : ℤ) * t * (ctx.mu : ℤ) = (ctx.n : ℤ) * (t * (ctx.mu : ℤ)) := by ring
      rw [he, Int.mul_emod_mul_of_pos _ _ hnpos, Int.mul_ediv_cancel_left _ hnz, hp0]
    rw [hval]
    unfold recenter
    rfl
  refine ⟨hdec, ⟨t, ht⟩, ?_⟩
  show (if h : (ctx.n : ℤ) ∣ ((cl : ℤ) - 1)
      then some (recenter ctx.n (((cl : ℤ) - 1) / (ctx.n : ℤ) * (ctx.mu : ℤ)))
      else none) = some (ctx.decrypt c)
  rw [dif_pos ⟨t, ht⟩]
  have hdiv : ((cl : ℤ) - 1) / (ctx.n : ℤ) = t := by
    rw [ht]
    exact Int.mul_ediv_cancel_left _ hnz
  rw [hdiv, hdec]
  exact congrArg some (recenter_congr hp0)

/-- Casting the modular-product fold of `calculate_encrypted_sum`. -/
lemma foldl_mod_cast (N2 : ℕ) (l : List ℕ) (acc : ℕ) :
    ((l.foldl (fun a ci => a * ci % N2) acc : ℕ) : ZMod N2)
      = (acc : ZMod N2) * (l.map (fun ci : ℕ => (ci : ZMod N2))).prod := by
  induction l generalizing acc with
  | nil => simp
  | cons c rest ih =>
      simp only [List.foldl_cons, List.map_cons, List.prod_cons]
      rw [ih, ZMod.natCast_mod, Nat.cast_mul]
      ring

/-- A product of values coprime to `n` is coprime to `n`. -/
lemma prod_coprime {n : ℕ} : ∀ rs : List ℕ, (∀ r ∈ rs, Nat.Coprime r n) →
    Nat.Coprime rs.prod n
  | [], _ => Nat.coprime_one_left n
  | r :: rs, h => by
      rw [List.prod_cons]
      exact Nat.Coprime.mul (h r (by simp))
        (prod_coprime rs (fun r' hr' => h r' (by simp [hr'])))

/-- The product of the casts of honest encryptions in `ZMod (n * n)`. -/
lemma zip_prod_cast {n : ℕ} (hn : 0 < n) : ∀ (ms : List ℤ) (rs : List ℕ),
    ms.length = rs.length → (∀ r ∈ rs, Nat.Coprime r n) →
    ((List.zipWith (fun m r => encrypt_vote m (n + 1, n) r) ms rs).map
        (fun ci : ℕ => (ci : ZMod (n * n)))).prod
      = (((n + 1 : ℕ) : ZMod (n * n))) ^ ((ms.sum % (n : ℤ)).toNat)
          * ((rs.prod : ℕ) : ZMod (n * n)) ^ n
  | [], [], _, _ => by simp
  | m :: ms, r :: rs, hlen, hr => by
      have hnz : (n : ℤ) ≠ 0 := by exact_mod_cast hn.ne'
      have ih := zip_prod_cast hn ms rs (by simpa using hlen)
        (fun r' hr' => hr r' (by simp [hr']))
      simp only [List.zipWith_cons_cons, List.map_cons, List.prod_cons]
      rw [ih, encrypt_cast hn]
      have hexp : (m % (n : ℤ)).toNat + (ms.sum % (n : ℤ)).toNat
          ≡ ((m + ms.sum) % (n : ℤ)).toNat [MOD n] := by
        apply nat_modEq_of_int
        have h1 : ((m % (n : ℤ)).toNat : ℤ) = m % n :=
          Int.toNat_of_nonneg (Int.emod_nonneg m hnz)
        have h2 : ((ms.sum % (n : ℤ)).toNat : ℤ) = ms.sum % n :=
          Int.toNat_of_nonneg (Int.emod_nonneg ms.sum hnz)
        have h3 : (((m + ms.sum) % (n : ℤ)).toNat : ℤ) = (m + ms.sum) % n :=
          Int.toNat_of_nonneg (Int.emod_nonneg _ hnz)
        push_cast
        rw [h1, h2, h3]
        show (m % (n : ℤ) + ms.sum % (n : ℤ)) % (n : ℤ)
          = ((m + ms.sum) % (n : ℤ)) % (n : ℤ)
        rw [Int.emod_emod_of_dvd _ dvd_rfl, ← Int.add_emod]
      calc (((n + 1 : ℕ) : ZMod (n * n))) ^ (m % (n : ℤ)).toNat * ((r : ZMod (n * n))) ^ n
            * ((((n + 1 : ℕ) : ZMod (n * n))) ^ ((ms.sum % (n : ℤ)).toNat)
                * ((rs.prod : ℕ) : ZMod (n * n)) ^ n)
          = (((n + 1 : ℕ) : ZMod (n * n))) ^ ((m % (n : ℤ)).toNat + (ms.sum % (n : ℤ)).toNat)
              * (((r : ZMod (n * n))) * ((rs.prod : ℕ) : ZMod (n * n))) ^ n := by
            rw [pow_add, mul_pow]
            ring
        _ = (((n + 1 : ℕ) : ZMod (n * n))) ^ (((m :: ms).sum % (n : ℤ)).toNat)
              * (((r :: rs).prod : ℕ) : ZMod (n * n)) ^ n := by
            rw [g_pow_congr hexp, List.sum_cons, List.prod_cons]
            push_cast
            ring

/-- The cast of `calculate_encrypted_sum` on a non-empty list is the product
of the casts. -/
lemma calc_sum_cast {n : ℕ} {l : List ℕ} (hl : l ≠ []) :
    ((calculate_encrypted_sum l (n + 1, n) : ℕ) : ZMod (n * n))
      = (l.map (fun ci : ℕ => (ci : ZMod (n * n)))).prod := by
  match l, hl with
  | c :: rest, _ =>
      show ((rest.foldl (fun acc ci => acc * ci % (n * n)) c : ℕ) : ZMod (n * n)) = _
      rw [foldl_mod_cast]
      simp

/-- A ciphertext produced by `encrypt_vote` is a unit modulo `n²`, hence not
the integer `0`. -/
lemma encrypt_ne_zero (ctx : PaillierCtx) (hv : ctx.Valid) (m : ℤ) (r : ℕ)
    (hr : Nat.Coprime r ctx.n) :
    encrypt_vote m (ctx.g, ctx.n) r ≠ 0 := by
  obtain ⟨hp, hq, hpq, hco⟩ := hv
  have hn : 0 < ctx.n := Nat.mul_pos hp.pos hq.pos
  have hn2 : 1 < ctx.n * ctx.n := by
    have h4 : 4 ≤ ctx.n := Nat.mul_le_mul hp.two_le hq.two_le
    nlinarith
  haveI : Fact (1 < ctx.n * ctx.n) := ⟨hn2⟩
  intro h0
  have hcast : ((encrypt_vote m (ctx.g, ctx.n) r : ℕ) : ZMod (ctx.n * ctx.n))
      = (((ctx.n + 1 : ℕ) : ZMod (ctx.n * ctx.n))) ^ (m % (ctx.n : ℤ)).toNat
          * ((r : ZMod (ctx.n * ctx.n))) ^ ctx.n := encrypt_cast hn m r
  have hunit : IsUnit ((((ctx.n + 1 : ℕ) : ZMod (ctx.n * ctx.n))) ^ (m % (ctx.n : ℤ)).toNat
      * ((r : ZMod (ctx.n * ctx.n))) ^ ctx.n) := by
    exact IsUnit.mul
      (((ZMod.isUnit_iff_coprime _ _).mpr (g_coprime ctx.n)).pow _)
      (((ZMod.isUnit_iff_coprime _ _).mpr (hr.mul_right hr)).pow _)
  rw [h0] at hcast
  rw [Nat.cast_zero] at hcast
  exact hunit.ne_zero hcast.symm

/-- Decrypting the integer `0` (which is not a ciphertext) silently yields
`-1` for every valid key. -/
lemma decrypt_zero (ctx : PaillierCtx) (hv : ctx.Valid) : ctx.decrypt 0 = -1 := by
  obtain ⟨hp, hq, hpq, hco⟩ := hv
  have hn4 : 4 ≤ ctx.n := Nat.mul_le_mul hp.two_le hq.two_le
  have hn : 0 < ctx.n := by omega
  have hnz : (ctx.n : ℤ) ≠ 0 := by exact_mod_cast hn.ne'
  have hlam : ctx.lmbda ≠ 0 := by
    intro h0
    rw [h0] at hco
    have := Nat.coprime_zero_left ctx.n |>.mp hco
    omega
  have hmu_lt : ctx.mu < ctx.n := Nat.mod_lt _ hn
  have hmu_pos : 0 < ctx.mu := by
    rcases Nat.eq_zero_or_pos ctx.mu with h0 | h0
    · exfalso
      have h1 := invMod_mul hn hco
      show False
      have h2 : ctx.lmbda * ctx.mu = ctx.lmbda * invMod ctx.lmbda ctx.n := rfl
      rw [← h2, h0, Nat.mul_zero] at h1
      have h3 : 0 % ctx.n = 1 % ctx.n := h1
      rw [Nat.zero_mod, Nat.mod_eq_of_lt (by omega)] at h3
      omega
    · exact h0
  have hcl : (0 : ℕ) ^ ctx.lmbda % (ctx.n * ctx.n) = 0 := by
    rw [zero_pow hlam, Nat.zero_mod]
  have hcast0 : (((0 : ℕ) ^ ctx.lmbda % (ctx.n * ctx.n) : ℕ) : ℤ) = 0 := by
    rw [hcl]
    rfl
  show (if (((((0 : ℕ) ^ ctx.lmbda % (ctx.n * ctx.n) : ℕ) : ℤ) - 1) * (ctx.mu : ℤ)).fmod
          ((ctx.n : ℤ) * (ctx.n : ℤ)) / (ctx.n : ℤ) > (ctx.n : ℤ) / 2
      then _ else _) = (-1 : ℤ)
  rw [hcast0]
  have hval : (((0 : ℤ) - 1) * (ctx.mu : ℤ)).fmod ((ctx.n : ℤ) * (ctx.n : ℤ)) / (ctx.n : ℤ)
      = (ctx.n : ℤ) - 1 := by
    have he : ((0 : ℤ) - 1) * (ctx.mu : ℤ) = -(ctx.mu : ℤ) := by ring
    rw [he, Int.fmod_eq_emod _ (by positivity)]
    have hmuz : (0 : ℤ) < (ctx.mu : ℤ) := by exact_mod_cast hmu_pos
    have hmuz2 : (ctx.mu : ℤ) < (ctx.n : ℤ) := by exact_mod_cast hmu_lt
    have hrw : -(ctx.mu : ℤ) = ((ctx.n : ℤ) * (ctx.n : ℤ) - ctx.mu)
        + ((ctx.n : ℤ) * (ctx.n : ℤ)) * (-1) := by ring
    have hemod : -(ctx.mu : ℤ) % ((ctx.n : ℤ) * (ctx.n : ℤ))
        = (ctx.n : ℤ) * (ctx.n : ℤ) - ctx.mu := by
      rw [hrw, Int.add_mul_emod_self_left]
      exact Int.emod_eq_of_lt (by nlinarith) (by nlinarith)
    rw [hemod]
    have hq1 : (ctx.n : ℤ) * (ctx.n : ℤ) - ctx.mu
        = ((ctx.n : ℤ) - ctx.mu) + (ctx.n : ℤ) * ((ctx.n : ℤ) - 1) := by ring
    rw [hq1, Int.add_mul_ediv_left _ _ hnz,
      Int.ediv_eq_zero_of_lt (by nlinarith) (by nlinarith)]
    ring
  rw [hval, if_pos]
  · ring
  · rw [gt_iff_lt, Int.ediv_lt_iff_lt_mul (by norm_num : (0:ℤ) < 2)]
    have : (4 : ℤ) ≤ (ctx.n : ℤ) := by exact_mod_cast hn4
    omega

end Helpers

section PaillierClaims

/-- C1: for every valid Paillier key pair (p ≠ q prime, n = p·q, g = n+1,
λ = (p−1)(q−1), μ = λ⁻¹ mod n) and every signed integer m with |m| < n/2,
decrypting the ciphertext produced by `encrypt_vote m (g, n)` with the
matching private key returns exactly m, for every choice of the encryption
randomness r (every r with gcd r n = 1, which is what `encrypt_vote`
selects). -/
theorem decrypt_encrypt_roundtrip (ctx : PaillierCtx) (hv : ctx.Valid) (m : ℤ)
    (hm : 2 * m.natAbs < ctx.n) (r : ℕ) (hr : Nat.Coprime r ctx.n) :
    ctx.decrypt (encrypt_vote m (ctx.g, ctx.n) r) = m := by
  have hn : 0 < ctx.n := Nat.mul_pos hv.1.pos hv.2.1.pos
  have hc : ((encrypt_vote m (ctx.g, ctx.n) r : ℕ) : ZMod (ctx.n * ctx.n))
      = (((ctx.n + 1 : ℕ) : ZMod (ctx.n * ctx.n))) ^ (m % (ctx.n : ℤ)).toNat
          * ((r : ZMod (ctx.n * ctx.n))) ^ ctx.n := encrypt_cast hn m r
  rw [(decrypt_eq_recenter ctx hv _ m r hr hc).1]
  exact recenter_eq_self hm

/-- Witness for C1 at the concrete valid key pair `(p, q) = (3, 5)`
(`n = 15`), plaintext `m = 2` and randomness `r = 2`. -/
theorem decrypt_encrypt_roundtrip_witness :
    (⟨3, 5⟩ : PaillierCtx).decrypt
        (encrypt_vote 2 ((⟨3, 5⟩ : PaillierCtx).g, (⟨3, 5⟩ : PaillierCtx).n) 2) = 2 :=
  decrypt_encrypt_roundtrip ⟨3, 5⟩ (by decide) 2 (by decide) 2 (by decide)

/-- C2: for every valid key pair and every non-empty list of signed values,
each in range, applying `calculate_encrypted_sum` to the list of their
individual encryptions yields a ciphertext that decrypts to the re-centered
sum of the plaintexts. -/
theorem homomorphic_sum_decrypt (ctx : PaillierCtx) (hv : ctx.Valid)
    (ms : List ℤ) (rs : List ℕ) (hne : ms ≠ []) (hlen : ms.length = rs.length)
    (hms : ∀ m ∈ ms, 2 * m.natAbs < ctx.n) (hrs : ∀ r ∈ rs, Nat.Coprime r ctx.n) :
    ctx.decrypt (calculate_encrypted_sum
        (List.zipWith (fun m r => encrypt_vote m (ctx.g, ctx.n) r) ms rs)
        (ctx.g, ctx.n))
      = recenter ctx.n ms.sum := by
  have hn : 0 < ctx.n := Nat.mul_pos hv.1.pos hv.2.1.pos
  show ctx.decrypt (calculate_encrypted_sum
      (List.zipWith (fun m r => encrypt_vote m (ctx.n + 1, ctx.n) r) ms rs)
      (ctx.n + 1, ctx.n)) = recenter ctx.n ms.sum
  have hzne : List.zipWith (fun m r => encrypt_vote m (ctx.n + 1, ctx.n) r) ms rs ≠ [] := by
    cases ms with
    | nil => exact absurd rfl hne
    | cons m ms' =>
        cases rs with
        | nil => simp at hlen
        | cons r rs' => simp
  have hc : ((calculate_encrypted_sum
        (List.zipWith (fun m r => encrypt_vote m (ctx.n + 1, ctx.n) r) ms rs)
        (ctx.n + 1, ctx.n) : ℕ) : ZMod (ctx.n * ctx.n))
      = (((ctx.n + 1 : ℕ) : ZMod (ctx.n * ctx.n))) ^ ((ms.sum % (ctx.n : ℤ)).toNat)
          * ((rs.prod : ℕ) : ZMod (ctx.n * ctx.n)) ^ ctx.n := by
    rw [calc_sum_cast hzne]
    exact zip_prod_cast hn ms rs hlen hrs
  exact (decrypt_eq_recenter ctx hv _ ms.sum rs.prod (prod_coprime rs hrs) hc).1

/-- Witness for C2: encrypting `[1, -1, 1, 1, -1]` under the valid key pair
`(3, 5)` with coprime randomness, homomorphically summing and decrypting
yields `1`, the claim's concrete instance. -/
theorem homomorphic_sum_decrypt_witness :
    (⟨3, 5⟩ : PaillierCtx).decrypt (calculate_encrypted_sum
        (List.zipWith
          (fun m r => encrypt_vote m ((⟨3, 5⟩ : PaillierCtx).g, (⟨3, 5⟩ : PaillierCtx).n) r)
          [1, -1, 1, 1, -1] [2, 4, 7, 8, 11])
        ((⟨3, 5⟩ : PaillierCtx).g, (⟨3, 5⟩ : PaillierCtx).n)) = 1 := by
  have h := homomorphic_sum_decrypt ⟨3, 5⟩ (by decide) [1, -1, 1, 1, -1]
    [2, 4, 7, 8, 11] (by decide) (by decide) (by decide) (by decide)
  rw [h]
  decide

/-- C5 counterexample: under the valid key pair `(3, 5)` (`n = 15`, `λ = 8`)
the ciphertext `3` makes the division `(3^8 mod 225 - 1) / 15` inexact; the
spec-described checked decryptor fails there, but the code's `decrypt` raises
nothing and silently returns `4` (no `DecryptError` exists in the code). -/
theorem decrypt_silent_on_inexact_division :
    ¬ (((⟨3, 5⟩ : PaillierCtx).n : ℤ)
        ∣ ((3 ^ (⟨3, 5⟩ : PaillierCtx).lmbda
            % ((⟨3, 5⟩ : PaillierCtx).n * (⟨3, 5⟩ : PaillierCtx).n) : ℕ) : ℤ) - 1)
      ∧ decryptChecked ⟨3, 5⟩ 3 = none
      ∧ (⟨3, 5⟩ : PaillierCtx).decrypt 3 = 4 := by
  refine ⟨by decide, by decide, by decide⟩

/-- C5 amended: `decrypt` never raises (it is a total function); on every
ciphertext produced by `encrypt_vote` under the same key the division
`(c^λ mod n² - 1) / n` is exact, and the spec's exactness-checked decryptor
returns exactly the value the code's decryptor computes. -/
theorem honest_division_exact (ctx : PaillierCtx) (hv : ctx.Valid) (m : ℤ)
    (hm : 2 * m.natAbs < ctx.n) (r : ℕ) (hr : Nat.Coprime r ctx.n) :
    ((ctx.n : ℤ)
        ∣ (((encrypt_vote m (ctx.g, ctx.n) r) ^ ctx.lmbda % (ctx.n * ctx.n) : ℕ) : ℤ) - 1)
      ∧ decryptChecked ctx (encrypt_vote m (ctx.g, ctx.n) r)
          = some (ctx.decrypt (encrypt_vote m (ctx.g, ctx.n) r)) := by
  have hn : 0 < ctx.n := Nat.mul_pos hv.1.pos hv.2.1.pos
  have hc : ((encrypt_vote m (ctx.g, ctx.n) r : ℕ) : ZMod (ctx.n * ctx.n))
      = (((ctx.n + 1 : ℕ) : ZMod (ctx.n * ctx.n))) ^ (m % (ctx.n : ℤ)).toNat
          * ((r : ZMod (ctx.n * ctx.n))) ^ ctx.n := encrypt_cast hn m r
  have h := decrypt_eq_recenter ctx hv _ m r hr hc
  exact ⟨h.2.1, h.2.2⟩

/-- Witness for the amended C5 at the key pair `(3, 5)`, `m = 1`, `r = 2`. -/
theorem honest_division_exact_witness :
    (((⟨3, 5⟩ : PaillierCtx).n : ℤ)
        ∣ (((encrypt_vote 1 ((⟨3, 5⟩ : PaillierCtx).g, (⟨3, 5⟩ : PaillierCtx).n) 2)
              ^ (⟨3, 5⟩ : PaillierCtx).lmbda
            % ((⟨3, 5⟩ : PaillierCtx).n * (⟨3, 5⟩ : PaillierCtx).n) : ℕ) : ℤ) - 1)
      ∧ decryptChecked ⟨3, 5⟩
            (encrypt_vote 1 ((⟨3, 5⟩ : PaillierCtx).g, (⟨3, 5⟩ : PaillierCtx).n) 2)
          = some ((⟨3, 5⟩ : PaillierCtx).decrypt
              (encrypt_vote 1 ((⟨3, 5⟩ : PaillierCtx).g, (⟨3, 5⟩ : PaillierCtx).n) 2)) :=
  honest_division_exact ⟨3, 5⟩ (by decide) 1 (by decide) 2 (by decide)

/-- C9: `calculate_encrypted_sum` on the empty list returns the integer `0`,
a sentinel that `encrypt_vote` can never produce (its output is a unit modulo
n², never 0) and that decrypts to `-1 ≠ 0` under every valid key, rather than
raising an error or returning an encryption of zero. -/
theorem empty_sum_zero_sentinel (ctx : PaillierCtx) (hv : ctx.Valid) (m : ℤ)
    (r : ℕ) (hr : Nat.Coprime r ctx.n) :
    calculate_encrypted_sum [] (ctx.g, ctx.n) = 0
      ∧ encrypt_vote m (ctx.g, ctx.n) r ≠ 0
      ∧ ctx.decrypt 0 = -1 :=
  ⟨rfl, encrypt_ne_zero ctx hv m r hr, decrypt_zero ctx hv⟩

/-- Witness for C9 at the key pair `(3, 5)`, `m = 1`, `r = 2`. -/
theorem empty_sum_zero_sentinel_witness :
    calculate_encrypted_sum [] ((⟨3, 5⟩ : PaillierCtx).g, (⟨3, 5⟩ : PaillierCtx).n) = 0
      ∧ encrypt_vote 1 ((⟨3, 5⟩ : PaillierCtx).g, (⟨3, 5⟩ : PaillierCtx).n) 2 ≠ 0
      ∧ (⟨3, 5⟩ : PaillierCtx).decrypt 0 = -1 :=
  empty_sum_zero_sentinel ⟨3, 5⟩ (by decide) 1 2 (by decide)

end PaillierClaims

section ZkpClaims

/-- Cast of the commitment `u = g^x * s^N mod N²` into `ZMod (n * n)`. -/
lemma zkp_u_cast (n x s : ℕ) :
    ((((n + 1) ^ x % (n * n)) * (s ^ n % (n * n)) % (n * n) : ℕ) : ZMod (n * n))
      = (((n + 1 : ℕ) : ZMod (n * n))) ^ x * ((s : ZMod (n * n))) ^ n := by
  rw [ZMod.natCast_mod, Nat.cast_mul, ZMod.natCast_mod, ZMod.natCast_mod,
    Nat.cast_pow, Nat.cast_pow]

/-- Cast of the verification product `g^v * w^N * c^e mod N²` into
`ZMod (n * n)`, for the response generated from plaintext `mres` and the true
randomness `r` of a ciphertext holding `m`. -/
lemma zkp_lhs_cast {n : ℕ} (hn : 0 < n) (m mres : ℤ) {r : ℕ}
    (hr : Nat.Coprime r n) {e : ℕ} (he : 1 ≤ e) (x s : ℕ) :
    ((((n + 1) ^ ((((x : ℤ) - (e : ℤ) * mres) % (n : ℤ)).toNat) % (n * n))
        * ((s * powMod r (-(e : ℤ)) n % n) ^ n % (n * n))
        * ((encrypt_vote m (n + 1, n) r) ^ e % (n * n)) % (n * n) : ℕ) : ZMod (n * n))
      = (((n + 1 : ℕ) : ZMod (n * n)))
          ^ ((((x : ℤ) - (e : ℤ) * mres) % (n : ℤ)).toNat + (m % (n : ℤ)).toNat * e)
          * ((s : ZMod (n * n))) ^ n := by
  have hpm : powMod r (-(e : ℤ)) n = invMod r n ^ e % n := by
    unfold powMod
    rw [if_neg (by omega)]
    congr 2
    omega
  have hw : ((s * powMod r (-(e : ℤ)) n % n : ℕ) : ZMod (n * n)) ^ n
      = (((s * invMod r n ^ e : ℕ)) : ZMod (n * n)) ^ n := by
    apply pow_lift
    rw [hpm]
    exact (Nat.mod_modEq _ n).trans (Nat.ModEq.mul_left s (Nat.mod_modEq _ _))
  have htr : (((invMod r n * r : ℕ)) : ZMod (n * n)) ^ n = 1 := by
    have h1 : invMod r n * r ≡ 1 [MOD n] := by
      rw [Nat.mul_comm]
      exact invMod_mul hn hr
    have h2 := pow_lift h1
    rw [Nat.cast_one, one_pow] at h2
    exact h2
  have hc := encrypt_cast hn m r
  calc ((((n + 1) ^ ((((x : ℤ) - (e : ℤ) * mres) % (n : ℤ)).toNat) % (n * n))
        * ((s * powMod r (-(e : ℤ)) n % n) ^ n % (n * n))
        * ((encrypt_vote m (n + 1, n) r) ^ e % (n * n)) % (n * n) : ℕ) : ZMod (n * n))
      = (((n + 1 : ℕ) : ZMod (n * n))) ^ ((((x : ℤ) - (e : ℤ) * mres) % (n : ℤ)).toNat)
          * ((s * powMod r (-(e : ℤ)) n % n : ℕ) : ZMod (n * n)) ^ n
          * ((encrypt_vote m (n + 1, n) r : ℕ) : ZMod (n * n)) ^ e := by
        rw [ZMod.natCast_mod, Nat.cast_mul, Nat.cast_mul, ZMod.natCast_mod,
          ZMod.natCast_mod, ZMod.natCast_mod, Nat.cast_pow, Nat.cast_pow, Nat.cast_pow]
    _ = (((n + 1 : ℕ) : ZMod (n * n))) ^ ((((x : ℤ) - (e : ℤ) * mres) % (n : ℤ)).toNat)
          * (((s : ZMod (n * n))) * ((invMod r n : ℕ) : ZMod (n * n)) ^ e) ^ n
          * ((((n + 1 : ℕ) : ZMod (n * n))) ^ (m % (n : ℤ)).toNat
              * ((r : ZMod (n * n))) ^ n) ^ e := by
        rw [hw, hc]
        push_cast
        ring
    _ = (((n + 1 : ℕ) : ZMod (n * n)))
          ^ ((((x : ℤ) - (e : ℤ) * mres) % (n : ℤ)).toNat + (m % (n : ℤ)).toNat * e)
          * ((s : ZMod (n * n))) ^ n
          * (((((invMod r n : ℕ) : ZMod (n * n))) * ((r : ZMod (n * n)))) ^ n) ^ e := by
        ring
    _ = (((n + 1 : ℕ) : ZMod (n * n)))
          ^ ((((x : ℤ) - (e : ℤ) * mres) % (n : ℤ)).toNat + (m % (n : ℤ)).toNat * e)
          * ((s : ZMod (n * n))) ^ n := by
        have h3 : (((invMod r n : ℕ) : ZMod (n * n))) * ((r : ZMod (n * n)))
            = (((invMod r n * r : ℕ)) : ZMod (n * n)) := by push_cast; ring
        rw [h3, htr, one_pow, mul_one]

/-- The verification equation, reduced to an equation between the two cast
values in `ZMod (n * n)`. -/
lemma zkp_verify_iff {n : ℕ} (hn : 0 < n) (m mres : ℤ) {r : ℕ}
    (hr : Nat.Coprime r n) {e : ℕ} (he : 1 ≤ e) (x s : ℕ) :
    (verify_zkp_response
        (generate_zkp_challange_response mres r (n + 1, n) e x s).1
        (generate_zkp_challange_response mres r (n + 1, n) e x s).2.1
        (generate_zkp_challange_response mres r (n + 1, n) e x s).2.2
        e (encrypt_vote m (n + 1, n) r) (n + 1, n) = true)
      ↔ ((((n + 1 : ℕ) : ZMod (n * n)))
            ^ ((((x : ℤ) - (e : ℤ) * mres) % (n : ℤ)).toNat + (m % (n : ℤ)).toNat * e)
            * ((s : ZMod (n * n))) ^ n
          = (((n + 1 : ℕ) : ZMod (n * n))) ^ x * ((s : ZMod (n * n))) ^ n) := by
  have hshow : verify_zkp_response
        (generate_zkp_challange_response mres r (n + 1, n) e x s).1
        (generate_zkp_challange_response mres r (n + 1, n) e x s).2.1
        (generate_zkp_challange_response mres r (n + 1, n) e x s).2.2
        e (encrypt_vote m (n + 1, n) r) (n + 1, n)
      = decide ((((n + 1) ^ ((((x : ℤ) - (e : ℤ) * mres) % (n : ℤ)).toNat) % (n * n))
          * ((s * powMod r (-(e : ℤ)) n % n) ^ n % (n * n))
          * ((encrypt_vote m (n + 1, n) r) ^ e % (n * n)) % (n * n) : ℕ)
        = (((n + 1) ^ x % (n * n)) * (s ^ n % (n * n)) % (n * n) : ℕ)) := rfl
  rw [hshow, decide_eq_true_iff]
  constructor
  · intro h
    have h2 := congrArg (fun a : ℕ => (a : ZMod (n * n))) h
    simp only at h2
    rw [zkp_lhs_cast hn m mres hr he x s, zkp_u_cast] at h2
    exact h2
  · intro h
    have h2 : ((((n + 1) ^ ((((x : ℤ) - (e : ℤ) * mres) % (n : ℤ)).toNat) % (n * n))
          * ((s * powMod r (-(e : ℤ)) n % n) ^ n % (n * n))
          * ((encrypt_vote m (n + 1, n) r) ^ e % (n * n)) % (n * n) : ℕ) : ZMod (n * n))
        = ((((n + 1) ^ x % (n * n)) * (s ^ n % (n * n)) % (n * n) : ℕ) : ZMod (n * n)) := by
      rw [zkp_lhs_cast hn m mres hr he x s, zkp_u_cast]
      exact h
    have h3 := (ZMod.natCast_eq_natCast_iff' _ _ _).mp h2
    rwa [Nat.mod_mod_of_dvd _ dvd_rfl, Nat.mod_mod_of_dvd _ dvd_rfl] at h3

/-- C3: for every valid public key `(g, n)`, every plaintext `m` in range,
every randomness `r` with `gcd r n = 1` (as selected by `encrypt_vote`,
producing the ciphertext), every challenge `e` in `[1, n)`, and every choice
of the internal ephemeral randoms `x` and `s`, the triple `(u, v, w)`
returned by `generate_zkp_challange_response m r (g, n) e` passes
`verify_zkp_response` against the ciphertext. -/
theorem zkp_honest_accepts (ctx : PaillierCtx) (hv : ctx.Valid) (m : ℤ)
    (hm : 2 * m.natAbs < ctx.n) (r : ℕ) (hr : Nat.Coprime r ctx.n)
    (e : ℕ) (he1 : 1 ≤ e) (he2 : e < ctx.n) (x s : ℕ) :
    verify_zkp_response
        (generate_zkp_challange_response m r (ctx.g, ctx.n) e x s).1
        (generate_zkp_challange_response m r (ctx.g, ctx.n) e x s).2.1
        (generate_zkp_challange_response m r (ctx.g, ctx.n) e x s).2.2
        e (encrypt_vote m (ctx.g, ctx.n) r) (ctx.g, ctx.n) = true := by
  have hn : 0 < ctx.n := Nat.mul_pos hv.1.pos hv.2.1.pos
  have hnz : (ctx.n : ℤ) ≠ 0 := by exact_mod_cast hn.ne'
  show verify_zkp_response
      (generate_zkp_challange_response m r (ctx.n + 1, ctx.n) e x s).1
      (generate_zkp_challange_response m r (ctx.n + 1, ctx.n) e x s).2.1
      (generate_zkp_challange_response m r (ctx.n + 1, ctx.n) e x s).2.2
      e (encrypt_vote m (ctx.n + 1, ctx.n) r) (ctx.n + 1, ctx.n) = true
  rw [zkp_verify_iff hn m m hr he1 x s]
  rw [g_pow_congr (n := ctx.n)]
  apply nat_modEq_of_int
  have h1 : ((x : ℤ) - (e : ℤ) * m) % (ctx.n : ℤ) ≡ ((x : ℤ) - (e : ℤ) * m)
      [ZMOD (ctx.n : ℤ)] := Int.emod_emod_of_dvd _ dvd_rfl
  have h2 : (m % (ctx.n : ℤ)) * e ≡ m * e [ZMOD (ctx.n : ℤ)] :=
    Int.ModEq.mul_right _ (Int.emod_emod_of_dvd _ dvd_rfl)
  have h3 := h1.add h2
  rw [show ((x : ℤ) - (e : ℤ) * m) + m * e = (x : ℤ) by ring] at h3
  have h4 : (((((x : ℤ) - (e : ℤ) * m) % (ctx.n : ℤ)).toNat
      + (m % (ctx.n : ℤ)).toNat * e : ℕ) : ℤ)
      = ((x : ℤ) - (e : ℤ) * m) % (ctx.n : ℤ) + (m % (ctx.n : ℤ)) * e := by
    push_cast
    rw [Int.toNat_of_nonneg (Int.emod_nonneg _ hnz),
      Int.toNat_of_nonneg (Int.emod_nonneg _ hnz)]
  rw [h4]
  exact h3

/-- Witness for C3 at the key pair `(3, 5)`, `m = 1`, `r = 2`, challenge
`e = 7` and ephemerals `x = 4`, `s = 7`. -/
theorem zkp_honest_accepts_witness :
    verify_zkp_response
        (generate_zkp_challange_response 1 2
          ((⟨3, 5⟩ : PaillierCtx).g, (⟨3, 5⟩ : PaillierCtx).n) 7 4 7).1
        (generate_zkp_challange_response 1 2
          ((⟨3, 5⟩ : PaillierCtx).g, (⟨3, 5⟩ : PaillierCtx).n) 7 4 7).2.1
        (generate_zkp_challange_response 1 2
          ((⟨3, 5⟩ : PaillierCtx).g, (⟨3, 5⟩ : PaillierCtx).n) 7 4 7).2.2
        7 (encrypt_vote 1 ((⟨3, 5⟩ : PaillierCtx).g, (⟨3, 5⟩ : PaillierCtx).n) 2)
        ((⟨3, 5⟩ : PaillierCtx).g, (⟨3, 5⟩ : PaillierCtx).n) = true :=
  zkp_honest_accepts ⟨3, 5⟩ (by decide) 1 (by decide) 2 (by decide) 7 (by decide)
    (by decide) 4 7

/-- C4 counterexample: with the valid key pair `(3, 5)` (`n = 15`), honest
vote `m = 1` encrypted with `r = 2` (coprime to 15), challenge `e = 3 ∈
[1, 15)` and ephemerals `x = 1`, `s = 5 ∈ [1, 14]`, the response generated
from the opposite plaintext `-1` with the true `r` nevertheless PASSES
`verify_zkp_response` — because `s = 5` shares the factor 5 with `n` and
`e = 3` carries the factor 3, so `n ∣ 2·e·m·s^n`.  The claim asserts this
verification is deterministically false. -/
theorem zkp_fraud_accepted_with_shared_factor :
    (⟨3, 5⟩ : PaillierCtx).Valid
      ∧ Nat.Coprime 2 (⟨3, 5⟩ : PaillierCtx).n
      ∧ 1 ≤ 3 ∧ 3 < (⟨3, 5⟩ : PaillierCtx).n
      ∧ 1 ≤ 5 ∧ 5 ≤ (⟨3, 5⟩ : PaillierCtx).n - 1
      ∧ verify_zkp_response
          (generate_zkp_challange_response (-1) 2
            ((⟨3, 5⟩ : PaillierCtx).g, (⟨3, 5⟩ : PaillierCtx).n) 3 1 5).1
          (generate_zkp_challange_response (-1) 2
            ((⟨3, 5⟩ : PaillierCtx).g, (⟨3, 5⟩ : PaillierCtx).n) 3 1 5).2.1
          (generate_zkp_challange_response (-1) 2
            ((⟨3, 5⟩ : PaillierCtx).g, (⟨3, 5⟩ : PaillierCtx).n) 3 1 5).2.2
          3 (encrypt_vote 1 ((⟨3, 5⟩ : PaillierCtx).g, (⟨3, 5⟩ : PaillierCtx).n) 2)
          ((⟨3, 5⟩ : PaillierCtx).g, (⟨3, 5⟩ : PaillierCtx).n) = true := by
  decide

/-- C4 amended: for every valid key pair with odd primes, binary vote
`m ∈ {1, -1}`, true randomness `r` (coprime to n), challenge `e ∈ [1, n)`,
and every ephemeral `x` and every ephemeral `s` that is COPRIME to `n`
(`generate_zkp_challange_response` draws `s` from `[1, n)` without a
coprimality check, and the claim fails for `s` sharing a factor with `n`),
the response generated from the opposite plaintext `-m` with the true `r`
fails `verify_zkp_response` against the ciphertext of `m`. -/
theorem zkp_fraud_rejected (ctx : PaillierCtx) (hv : ctx.Valid)
    (hp2 : ctx.p ≠ 2) (hq2 : ctx.q ≠ 2) (m : ℤ) (hm : m = 1 ∨ m = -1)
    (r : ℕ) (hr : Nat.Coprime r ctx.n) (e : ℕ) (he1 : 1 ≤ e) (he2 : e < ctx.n)
    (x s : ℕ) (hs : Nat.Coprime s ctx.n) :
    verify_zkp_response
        (generate_zkp_challange_response (-m) r (ctx.g, ctx.n) e x s).1
        (generate_zkp_challange_response (-m) r (ctx.g, ctx.n) e x s).2.1
        (generate_zkp_challange_response (-m) r (ctx.g, ctx.n) e x s).2.2
        e (encrypt_vote m (ctx.g, ctx.n) r) (ctx.g, ctx.n) = false := by
  have hn : 0 < ctx.n := Nat.mul_pos hv.1.pos hv.2.1.pos
  have hnz : (ctx.n : ℤ) ≠ 0 := by exact_mod_cast hn.ne'
  show verify_zkp_response
      (generate_zkp_challange_response (-m) r (ctx.n + 1, ctx.n) e x s).1
      (generate_zkp_challange_response (-m) r (ctx.n + 1, ctx.n) e x s).2.1
      (generate_zkp_challange_response (-m) r (ctx.n + 1, ctx.n) e x s).2.2
      e (encrypt_vote m (ctx.n + 1, ctx.n) r) (ctx.n + 1, ctx.n) = false
  rw [← Bool.not_eq_true, zkp_verify_iff hn m (-m) hr he1 x s]
  intro heq
  have hsu : IsUnit (((s : ZMod (ctx.n * ctx.n))) ^ ctx.n) :=
    ((ZMod.isUnit_iff_coprime _ _).mpr (hs.mul_right hs)).pow _
  have hg : (((ctx.n + 1 : ℕ) : ZMod (ctx.n * ctx.n)))
        ^ ((((x : ℤ) - (e : ℤ) * (-m)) % (ctx.n : ℤ)).toNat + (m % (ctx.n : ℤ)).toNat * e)
      = (((ctx.n + 1 : ℕ) : ZMod (ctx.n * ctx.n))) ^ x :=
    IsUnit.mul_right_cancel hsu heq
  have hcong := g_pow_inj hn hg
  have hint := int_modEq_of_nat hcong
  have h4 : (((((x : ℤ) - (e : ℤ) * (-m)) % (ctx.n : ℤ)).toNat
      + (m % (ctx.n : ℤ)).toNat * e : ℕ) : ℤ)
      = ((x : ℤ) + (e : ℤ) * m) % (ctx.n : ℤ) + (m % (ctx.n : ℤ)) * e := by
    push_cast
    rw [Int.toNat_of_nonneg (Int.emod_nonneg _ hnz),
      Int.toNat_of_nonneg (Int.emod_nonneg _ hnz)]
    ring_nf
  rw [h4] at hint
  have h5 : ((x : ℤ) + (e : ℤ) * m) % (ctx.n : ℤ) + (m % (ctx.n : ℤ)) * e
      ≡ (x : ℤ) + 2 * e * m [ZMOD (ctx.n : ℤ)] := by
    have ha : ((x : ℤ) + (e : ℤ) * m) % (ctx.n : ℤ) ≡ (x : ℤ) + (e : ℤ) * m
        [ZMOD (ctx.n : ℤ)] := Int.emod_emod_of_dvd _ dvd_rfl
    have hb : (m % (ctx.n : ℤ)) * e ≡ m * e [ZMOD (ctx.n : ℤ)] :=
      Int.ModEq.mul_right _ (Int.emod_emod_of_dvd _ dvd_rfl)
    have hab := ha.add hb
    rw [show (x : ℤ) + (e : ℤ) * m + m * e = (x : ℤ) + 2 * e * m by ring] at hab
    exact hab
  have h6 : (x : ℤ) + 2 * e * m ≡ (x : ℤ) [ZMOD (ctx.n : ℤ)] := h5.symm.trans hint
  have h7 : (ctx.n : ℤ) ∣ 2 * e * m := by
    have := Int.ModEq.dvd h6
    have heq2 : (x : ℤ) - ((x : ℤ) + 2 * e * m) = -(2 * e * m) := by ring
    rw [heq2] at this
    exact dvd_neg.mp this
  have h8 : ctx.n ∣ 2 * e := by
    rcases hm with h | h
    · rw [h, mul_one] at h7
      exact_mod_cast h7
    · rw [h] at h7
      have h7' : (ctx.n : ℤ) ∣ 2 * e := by
        have heq3 : -(2 * (e : ℤ) * -1) = 2 * e := by ring
        rw [← heq3]
        exact dvd_neg.mpr h7
      exact_mod_cast h7'
  have hodd : Odd ctx.n := by
    show Odd (ctx.p * ctx.q)
    exact (hv.1.odd_of_ne_two hp2).mul (hv.2.1.odd_of_ne_two hq2)
  have hco2 : Nat.Coprime ctx.n 2 := by
    have hnot : ¬ 2 ∣ ctx.n := by
      have h := Nat.odd_iff.mp hodd
      omega
    exact ((Nat.Prime.coprime_iff_not_dvd Nat.prime_two).mpr hnot).symm
  have h9 : ctx.n ∣ e := hco2.dvd_of_dvd_mul_left h8
  have h10 : ctx.n ≤ e := Nat.le_of_dvd (by omega) h9
  omega

/-- Witness for the amended C4 at the key pair `(3, 5)`, vote `m = 1`,
`r = 2`, challenge `e = 1` and coprime ephemeral `s = 2` (`x = 1`). -/
theorem zkp_fraud_rejected_witness :
    verify_zkp_response
        (generate_zkp_challange_response (-1) 2
          ((⟨3, 5⟩ : PaillierCtx).g, (⟨3, 5⟩ : PaillierCtx).n) 1 1 2).1
        (generate_zkp_challange_response (-1) 2
          ((⟨3, 5⟩ : PaillierCtx).g, (⟨3, 5⟩ : PaillierCtx).n) 1 1 2).2.1
        (generate_zkp_challange_response (-1) 2
          ((⟨3, 5⟩ : PaillierCtx).g, (⟨3, 5⟩ : PaillierCtx).n) 1 1 2).2.2
        1 (encrypt_vote 1 ((⟨3, 5⟩ : PaillierCtx).g, (⟨3, 5⟩ : PaillierCtx).n) 2)
        ((⟨3, 5⟩ : PaillierCtx).g, (⟨3, 5⟩ : PaillierCtx).n) = false :=
  zkp_fraud_rejected ⟨3, 5⟩ (by decide) (by decide) (by decide) 1 (Or.inl rfl)
    2 (by decide) 1 (by decide) (by decide) 1 2 (by decide)

end ZkpClaims

section ServerClaims

/-- C8 amended: the `vote` branch appends every received ciphertext to the
registry unconditionally — after any sequence of vote messages the registry
holds one entry per MESSAGE (not per client), in arrival order. -/
theorem vote_registry_appends (st : ServerState) (events : List (String × ℕ)) :
    (handle_votes st events).encrypted_votes
      = st.encrypted_votes ++ events.map (fun ev => ev.2) := by
  induction events generalizing st with
  | nil => simp [handle_votes]
  | cons ev rest ih =>
      show (handle_votes (handle_vote st ev.1 ev.2) rest).encrypted_votes = _
      rw [ih]
      simp [handle_vote]

/-- C8 counterexample: one registered client sends two vote messages; the
second message adds a second registry entry, so the registry holds two
entries for a single registered client. -/
theorem second_vote_adds_second_entry :
    (handle_votes
        { clients := ["C1"], encrypted_votes := [],
          shared_public_key := some (16, 15), active_challenges := [],
          finished_zkp_validations := false, zkp_log := [] }
        [("C1", 10), ("C1", 11)]).encrypted_votes = [10, 11]
      ∧ ([10, 11] : List ℕ).length = 2
      ∧ (["C1"] : List String).length = 1 := by
  refine ⟨rfl, rfl, rfl⟩

/-- C6 (failing input): two registered clients C1 and C2; C1 votes
ciphertext 10, then C2 votes ciphertext 20; the server then issues Sigma
challenges (drawing the challenge 7 for each client).  The code stores
`(challenge, encrypted_votes[-1])` for EVERY client, so C1's challenge is
bound to 20 — C2's ciphertext — and not to the ciphertext 10 that C1
submitted. -/
theorem challenge_binds_last_vote :
    ((challenge_clients_for_zkp
        (handle_votes
          { clients := ["C1", "C2"], encrypted_votes := [],
            shared_public_key := some (16, 15), active_challenges := [],
            finished_zkp_validations := false, zkp_log := [] }
          [("C1", 10), ("C2", 20)])
        (fun _ => 7)).active_challenges.lookup ("C1") = some (7, 20))
      ∧ ((challenge_clients_for_zkp
          (handle_votes
            { clients := ["C1", "C2"], encrypted_votes := [],
              shared_public_key := some (16, 15), active_challenges := [],
              finished_zkp_validations := false, zkp_log := [] }
          [("C1", 10), ("C2", 20)])
          (fun _ => 7)).active_challenges.lookup ("C2") = some (7, 20))
      ∧ (20 : ℕ) ≠ 10 := by
  refine ⟨rfl, rfl, by decide⟩

/-- C7 counterexample (networked server, server.py): clients C1 and C2 both
hold outstanding challenges; C1's response fails verification, which sets
`finished_zkp_validations` and halts the round, so C2's already-arrived
response is never verified: the log records only C1's failure and C2's
challenge stays outstanding — contradicting "does not abort verification of
the remaining voters". -/
theorem failed_proof_aborts_round :
    ((handle_zkp_responses
        { clients := ["C1", "C2"], encrypted_votes := [38, 53],
          shared_public_key := some (16, 15),
          active_challenges := [("C1", (3, 53)), ("C2", (3, 53))],
          finished_zkp_validations := false, zkp_log := [] }
        [("C1", (5, 0, 0)), ("C2", (1, 1, 1))]).zkp_log = [("C1", false)])
      ∧ ((handle_zkp_responses
          { clients := ["C1", "C2"], encrypted_votes := [38, 53],
            shared_public_key := some (16, 15),
            active_challenges := [("C1", (3, 53)), ("C2", (3, 53))],
            finished_zkp_validations := false, zkp_log := [] }
          [("C1", (5, 0, 0)), ("C2", (1, 1, 1))]).finished_zkp_validations = true)
      ∧ ((handle_zkp_responses
          { clients := ["C1", "C2"], encrypted_votes := [38, 53],
            shared_public_key := some (16, 15),
            active_challenges := [("C1", (3, 53)), ("C2", (3, 53))],
            finished_zkp_validations := false, zkp_log := [] }
          [("C1", (5, 0, 0)), ("C2", (1, 1, 1))]).active_challenges.lookup ("C2")
        = some (3, 53)) := by
  refine ⟨rfl, rfl, rfl⟩

/-- C7 amended: in the simulation server (`Server.verify_all_proofs`,
secure_voting_system.py) verification is per-voter, independent and
exhaustive: the result list carries exactly one boolean per stored voter in
storage order, and the j-th result is computed from that voter's own storage
entry, own simulator context and own fresh challenge alone — so one voter's
failure is recorded as that voter's flag and cannot abort or affect the
others.  (In the networked server a failure halts the round; see the
counterexample.) -/
theorem verify_all_proofs_per_voter (g P : ℕ) (contexts : List VoterCtx)
    (fraudulent : List String) (challenges : ℕ → ℕ)
    (storage : List (String × ℕ)) (i : ℕ) :
    ((verify_all_proofs g P contexts fraudulent challenges storage i).map Prod.fst
        = storage.map Prod.fst)
      ∧ (∀ j, (verify_all_proofs g P contexts fraudulent challenges storage i).get? j
          = (storage.get? j).map (fun p =>
              (p.1, verify_one g P contexts fraudulent (challenges (i + j)) p.1 p.2))) := by
  induction storage generalizing i with
  | nil =>
      refine ⟨rfl, ?_⟩
      intro j
      cases j <;> rfl
  | cons entry rest ih =>
      obtain ⟨entry_id, entry_a⟩ := entry
      constructor
      · show entry_id :: (verify_all_proofs g P contexts fraudulent challenges rest (i + 1)).map Prod.fst
            = entry_id :: rest.map Prod.fst
        rw [(ih (i + 1)).1]
      · intro j
        cases j with
        | zero =>
            show some (entry_id, verify_one g P contexts fraudulent (challenges i) entry_id entry_a)
              = some (entry_id, verify_one g P contexts fraudulent (challenges (i + 0)) entry_id entry_a)
            rw [Nat.add_zero]
        | succ j' =>
            show (verify_all_proofs g P contexts fraudulent challenges rest (i + 1)).get? j'
              = (rest.get? j').map (fun p =>
                  (p.1, verify_one g P contexts fraudulent (challenges (i + (j' + 1))) p.1 p.2))
            rw [(ih (i + 1)).2 j']
            have harith : i + 1 + j' = i + (j' + 1) := by omega
            rw [harith]

end ServerClaims

section ClientIdClaims

/-- C10 counterexample: one identifier ("C1000") has been issued — far fewer
than 9000 — yet against the random stream that forever draws 1000 the
rejection loop of `generate_client_id` never terminates: termination is only
almost sure, not certain for every execution. -/
theorem gen_client_id_nontermination : ¬ GenTerminates ["C1000"] (fun _ => 1000) := by
  intro h
  obtain ⟨fuel, hf⟩ := h
  have key : ∀ (f i : ℕ), generate_client_id ["C1000"] (fun _ => 1000) i f = none := by
    intro f
    induction f with
    | zero => intro i; rfl
    | succ f ih =>
        intro i
        show (if ("C" ++ Nat.repr 1000) ∈ ["C1000"]
            then generate_client_id ["C1000"] (fun _ => 1000) (i + 1) f
            else some ("C" ++ Nat.repr 1000, ("C" ++ Nat.repr 1000) :: ["C1000"]))
          = none
        rw [if_pos (by decide)]
        exact ih (i + 1)
  rw [key fuel 0] at hf
  exact Bool.noConfusion hf

/-- C10 amended: while an unused identifier remains, `generate_client_id`
terminates as soon as the stream of `randint(1000, 9999)` draws proposes one
(an almost-sure event), returning a fresh identifier of the form
`C<1000..9999>` and recording it as used; and once every one of the 9000
identifiers `C1000`..`C9999` is in the used set, no draw can ever succeed and
the call never terminates, bounding a server lifetime to 9000 clients. -/
theorem gen_client_id_spec (used : List String) (draws : ℕ → ℕ)
    (hdraws : ∀ i, 1000 ≤ draws i ∧ draws i ≤ 9999)
    (j : ℕ) (hj : ("C" ++ Nat.repr (draws j)) ∉ used) :
    (∃ fuel cid used', generate_client_id used draws 0 fuel = some (cid, used')
        ∧ cid ∉ used ∧ cid ∈ used'
        ∧ ∃ v, 1000 ≤ v ∧ v ≤ 9999 ∧ cid = "C" ++ Nat.repr v)
      ∧ GenTerminates used draws
      ∧ (Finset.Icc 1000 9999).card = 9000
      ∧ (∀ used2 : List String,
          (∀ v, 1000 ≤ v → v ≤ 9999 → ("C" ++ Nat.repr v) ∈ used2) →
          ∀ (fuel i : ℕ), generate_client_id used2 draws i fuel = none) := by
  have aux : ∀ (k i : ℕ), ("C" ++ Nat.repr (draws (i + k))) ∉ used →
      ∃ fuel cid used', generate_client_id used draws i fuel = some (cid, used')
        ∧ cid ∉ used ∧ cid ∈ used'
        ∧ ∃ v, 1000 ≤ v ∧ v ≤ 9999 ∧ cid = "C" ++ Nat.repr v := by
    intro k
    induction k with
    | zero =>
        intro i hi
        rw [Nat.add_zero] at hi
        refine ⟨1, "C" ++ Nat.repr (draws i), ("C" ++ Nat.repr (draws i)) :: used,
          ?_, hi, List.mem_cons_self _ _, draws i, (hdraws i).1, (hdraws i).2, rfl⟩
        show (if ("C" ++ Nat.repr (draws i)) ∈ used
            then generate_client_id used draws (i + 1) 0
            else some ("C" ++ Nat.repr (draws i), ("C" ++ Nat.repr (draws i)) :: used))
          = some ("C" ++ Nat.repr (draws i), ("C" ++ Nat.repr (draws i)) :: used)
        rw [if_neg hi]
    | succ k ih =>
        intro i hi
        by_cases hc : ("C" ++ Nat.repr (draws i)) ∈ used
        · have hi' : ("C" ++ Nat.repr (draws ((i + 1) + k))) ∉ used := by
            have harith : (i + 1) + k = i + (k + 1) := by omega
            rwa [harith]
          obtain ⟨fuel, cid, used', heq, h1, h2, h3⟩ := ih (i + 1) hi'
          refine ⟨fuel + 1, cid, used', ?_, h1, h2, h3⟩
          show (if ("C" ++ Nat.repr (draws i)) ∈ used
              then generate_client_id used draws (i + 1) fuel
              else some ("C" ++ Nat.repr (draws i), ("C" ++ Nat.repr (draws i)) :: used))
            = some (cid, used')
          rw [if_pos hc]
          exact heq
        · refine ⟨1, "C" ++ Nat.repr (draws i), ("C" ++ Nat.repr (draws i)) :: used,
            ?_, hc, List.mem_cons_self _ _, draws i, (hdraws i).1, (hdraws i).2, rfl⟩
          show (if ("C" ++ Nat.repr (draws i)) ∈ used
              then generate_client_id used draws (i + 1) 0
              else some ("C" ++ Nat.repr (draws i), ("C" ++ Nat.repr (draws i)) :: used))
            = some ("C" ++ Nat.repr (draws i), ("C" ++ Nat.repr (draws i)) :: used)
          rw [if_neg hc]
  have hmain := aux j 0 (by simpa using hj)
  refine ⟨hmain, ?_, by simp, ?_⟩
  · obtain ⟨fuel, cid, used', heq, _⟩ := hmain
    exact ⟨fuel, by rw [heq]; rfl⟩
  · intro used2 hall fuel
    induction fuel with
    | zero => intro i; rfl
    | succ f ih =>
        intro i
        show (if ("C" ++ Nat.repr (draws i)) ∈ used2
            then generate_client_id used2 draws (i + 1) f
            else some ("C" ++ Nat.repr (draws i), ("C" ++ Nat.repr (draws i)) :: used2))
          = none
        rw [if_pos (hall (draws i) (hdraws i).1 (hdraws i).2)]
        exact ih (i + 1)

/-- Witness for the amended C10: with no identifier issued yet and a stream
drawing 1234, the loop terminates. -/
theorem gen_client_id_spec_witness : GenTerminates [] (fun _ => 1234) :=
  (gen_client_id_spec [] (fun _ => 1234)
    (fun _ => ⟨by norm_num, by norm_num⟩) 0 (by simp)).2.1

end ClientIdClaims

end Voting
